import Mathlib

/-!
# Verification of the version-reconciliation pipeline

A shallow embedding, in Lean 4, of the core of the `versiontracker` program
(`src/main.py`): version-string normalization (`normalize_version`),
three-way version comparison (`compare_versions`, which delegates ordering of
the normalized digits-and-dots strings to PEP 440 release ordering, i.e.
zero-padded lexicographic comparison of the integer components), the
classification loop of `main_async` that builds the update set, the shared
counting semaphore bounding concurrent fetches, and the retry wrapper around
the remote lookup.

Strings are modelled as Lean `String`s (lists of characters); `c.isdigit()`
is modelled by `Char.isDigit` (ASCII digits — the version strings the program
manipulates are ASCII).
-/

namespace VersionTracker

/-! ## Version model: `normalize_version` (src/main.py lines 92-108) -/

/-- Step 1 of `normalize_version`: the generator expression
`c if c.isdigit() or c == '.' else '.'` applied to every character —
every character that is not a digit and not a dot is replaced by a dot. -/
def mapToDots (l : List Char) : List Char :=
  l.map (fun c => if c.isDigit || c == '.' then c else '.')

/-- Step 2 of `normalize_version`: the substitution collapsing every maximal
run of dots to a single dot. The Boolean flag records whether the previously
emitted character was a dot (so further dots of the same run are dropped). -/
def collapseDots : List Char → Bool → List Char
  | [], _ => []
  | c :: rest, prevDot =>
    if c == '.' then
      if prevDot then collapseDots rest true
      else '.' :: collapseDots rest true
    else c :: collapseDots rest false

/-- Step 3 of `normalize_version`: stripping leading and trailing dots. -/
def stripDots (l : List Char) : List Char :=
  (((l.dropWhile (fun c => c == '.')).reverse.dropWhile (fun c => c == '.'))).reverse

/-- The function `normalize_version` (src/main.py lines 92-108): keep digits and dots,
replace everything else with dots, collapse consecutive dots, strip
leading/trailing dots. -/
def normalize_version (s : String) : String :=
  String.mk (stripDots (collapseDots (mapToDots s.data) false))

/-- An alternative implementation of the run-collapsing substitution, written
directly from the spec's words: a separator is emitted once and the rest of
its run is skipped. Used to state the correctness of `collapseDots`. -/
def collapseRuns : List Char → List Char
  | [] => []
  | c :: rest =>
    if c == '.' then '.' :: collapseRuns (rest.dropWhile (fun x => x == '.'))
    else c :: collapseRuns rest
termination_by l => l.length
decreasing_by
  · exact Nat.lt_succ_of_le (List.dropWhile_suffix _).length_le
  · exact Nat.lt_succ_self _

/-- The normalization pipeline as §4.1 of the spec words it: replace every
character that is not a digit or a literal separator with a separator, then
collapse consecutive separators into one, then trim leading/trailing
separators. -/
def normalizeSpec (s : String) : String :=
  String.mk (stripDots (collapseRuns (mapToDots s.data)))

/-! ## Version model: `compare_versions` (src/main.py lines 110-132) -/

/-- The four comparison outcomes returned by `compare_versions`. -/
inductive ComparisonOutcome
  | update_available
  | up_to_date
  | versions_equal
  | unknown
deriving DecidableEq, Repr

instance : BEq ComparisonOutcome := ⟨fun a b => decide (a = b)⟩

/-- Splitting a character list at dots, keeping empty pieces — the splitting
convention of Python's `str.split('.')` that PEP 440 parsing performs on the
release segment. -/
def splitDots : List Char → List (List Char)
  | [] => [[]]
  | c :: t =>
    if c == '.' then [] :: splitDots t
    else
      match splitDots t with
      | [] => [[c]]
      | p :: ps => (c :: p) :: ps

/-- One release component: PEP 440 accepts a non-empty digit string and reads
it as a decimal integer (`int(p)`); anything else raises `InvalidVersion`. -/
def compToNat? (p : List Char) : Option Nat :=
  if !p.isEmpty && p.all Char.isDigit then
    some (p.foldl (fun n c => 10 * n + (c.toNat - 48)) 0)
  else none

/-- The behavior of `packaging.version.parse` on the digits-and-dots strings
produced by `normalize_version`: the empty string raises `InvalidVersion`
(modelled as `none`); otherwise every dot-separated component is a non-empty
digit string and the result is its release tuple of integers. A component
that is not a non-empty digit string would also raise (`none`) — this branch
is unreachable for normalized input. -/
def parseRelease (s : String) : Option (List Nat) :=
  if s.data.isEmpty then none
  else
    let parts := splitDots s.data
    if parts.all (fun p => (compToNat? p).isSome) then
      some (parts.map (fun p => (compToNat? p).getD 0))
    else none

/-- Comparison of an exhausted tuple against the remaining components of the
other: PEP 440 pads the shorter release tuple with zeros, so the result is
`eq` while the remaining components are all zero and `lt` at the first
nonzero one. -/
def cmpZeros : List Nat → Ordering
  | [] => .eq
  | b :: bs => if b = 0 then cmpZeros bs else .lt

/-- PEP 440 ordering of release tuples, as used by `packaging.version`'s
`Version.__lt__`/`__gt__`: the shorter tuple is padded with zeros (packaging
implements this by stripping trailing zeros from both before tuple
comparison; the two formulations agree — see `cmpComponents_eq_lexPadded`). -/
def cmpComponents : List Nat → List Nat → Ordering
  | [], bs => cmpZeros bs
  | a :: as, [] => if a = 0 then cmpComponents as [] else .gt
  | a :: as, b :: bs =>
    if a < b then .lt else if b < a then .gt else cmpComponents as bs

/-- The function `compare_versions` (src/main.py lines 110-132): normalize both inputs,
parse them; `InvalidVersion` on either side gives `unknown`; otherwise the
installed version strictly below the latest gives `update_available`,
strictly above gives `up_to_date`, and equality gives `versions_equal`. -/
def compare_versions (installed_version latest_version : String) : ComparisonOutcome :=
  match parseRelease (normalize_version installed_version),
        parseRelease (normalize_version latest_version) with
  | some a, some b =>
    match cmpComponents a b with
    | .lt => .update_available
    | .gt => .up_to_date
    | .eq => .versions_equal
  | _, _ => .unknown

/-- Zero-padding a component tuple to length `n`, as the spec words it. -/
def padTo (l : List Nat) (n : Nat) : List Nat :=
  l ++ List.replicate (n - l.length) 0

/-- Plain lexicographic comparison of component tuples (spec side). -/
def lexCmp : List Nat → List Nat → Ordering
  | [], [] => .eq
  | [], _ :: _ => .lt
  | _ :: _, [] => .gt
  | a :: as, b :: bs =>
    if a < b then .lt else if b < a then .gt else lexCmp as bs

/-- The comparison §4.1 of the spec describes: compare the two integer
component tuples lexicographically after zero-padding the shorter to the
longer length; strictly-less is `update_available`, strictly-greater is
`up_to_date`, equal is `versions_equal`. -/
def specCompare (a b : List Nat) : ComparisonOutcome :=
  match lexCmp (padTo a (max a.length b.length)) (padTo b (max a.length b.length)) with
  | .lt => .update_available
  | .gt => .up_to_date
  | .eq => .versions_equal

/-! ## Reconciliation engine: the classification loop (src/main.py lines 355-390) -/

/-- An application record as consumed by the classification loop: the fields
of `app_entry` after resolution has attached `latest_version`. -/
structure AppEntry where
  name : String
  identifier : String
  installed : String
  latest : String
deriving DecidableEq, Repr

/-- Python's substring test `needle in hay` on strings. -/
def containsSub (hay needle : List Char) : Bool :=
  needle.isPrefixOf hay ||
    match hay with
    | [] => false
    | _ :: t => containsSub t needle

/-- One iteration of the classification loop (src/main.py lines 371-390):
skip when either version string is empty; skip when the raw latest string
occurs inside the raw installed string or the installed string starts with
the latest string (the pre-filter); otherwise keep the entry exactly when
`compare_versions` says `update_available` (both `unknown` and the other
outcomes fall through without appending). -/
def needsUpdate (e : AppEntry) : Bool :=
  if e.installed.data.isEmpty || e.latest.data.isEmpty then false
  else if containsSub e.installed.data e.latest.data
          || e.latest.data.isPrefixOf e.installed.data then false
  else compare_versions e.installed e.latest == ComparisonOutcome.update_available

/-- The update set built by the loop: the entries kept, in input order. -/
def computeUpdates (entries : List AppEntry) : List AppEntry :=
  entries.filter needsUpdate

/-- The case-insensitive name ordering used by
`app_data.sort(key=lambda x: x[0].lower())` (src/main.py line 356). -/
def nameLe (a b : AppEntry) : Bool :=
  decide (a.name.toLower ≤ b.name.toLower)

/-- The upstream sort of records by display name, case-insensitive
(src/main.py line 356; Python's `list.sort` is a stable merge sort). -/
def sortEntries (l : List AppEntry) : List AppEntry :=
  l.mergeSort nameLe

/-- Resolution attaches the fetched latest version to its record
(`fetch_latest_version_for_app`, src/main.py lines 209-243); the resolver
function abstracts the identifier mapping, URL construction and scraping. -/
def attachLatest (resolve : String → String) (e : AppEntry) : AppEntry :=
  { e with latest := resolve e.identifier }

/-- The reconciliation pipeline of `main_async` after plist loading: sort the
records, resolve each (order-preserving: `asyncio.gather` returns results in
task order and each task mutates only its own entry), then classify. -/
def reconcile (resolve : String → String) (l : List AppEntry) : List AppEntry :=
  computeUpdates ((sortEntries l).map (attachLatest resolve))

/-! ## Concurrency gate (src/main.py lines 29-30, 230-232, 359)

`main_async` creates a single `asyncio.Semaphore(SEM_LIMIT)` and hands the
same object to every resolution task; each task wraps exactly its fetch in
`async with semaphore`. The cooperative scheduling of those tasks is
modelled as a small-step transition relation over the semaphore counter and
the per-task phase. -/

/-- Semaphore limit for concurrent HTTP requests (src/main.py line 30). -/
def SEM_LIMIT : Nat := 20

/-- The phase of one resolution task with respect to the admission gate. -/
inductive TaskPhase
  | pending
  | inflight
  | done
deriving DecidableEq, Repr

/-- Whether a task currently holds the gate (its fetch is in flight). -/
def TaskPhase.isInflight : TaskPhase → Bool
  | .inflight => true
  | _ => false

/-- The shared state: the value of the single counting semaphore and the
phase of every resolution task. There is one counter for the whole batch —
not one per record or per host. -/
structure GateState where
  available : Nat
  tasks : List TaskPhase
deriving DecidableEq, Repr

/-- Number of tasks whose fetch is currently in flight. -/
def inflightCount (s : GateState) : Nat :=
  s.tasks.countP TaskPhase.isInflight

/-- The initial state for a batch of `n` records: the semaphore holds
`SEM_LIMIT` permits and every task is pending. -/
def initState (n : Nat) : GateState :=
  ⟨SEM_LIMIT, List.replicate n .pending⟩

/-- One scheduler step: a pending task acquires the semaphore (possible only
when a permit is available — `asyncio.Semaphore.acquire` blocks otherwise)
and its fetch goes in flight, or an in-flight task finishes its fetch and
releases the semaphore (leaving the `async with` block). -/
inductive GateStep : GateState → GateState → Prop
  | acquire (s : GateState) (i : Nat)
      (hp : s.tasks[i]? = some .pending) (hc : 0 < s.available) :
      GateStep s ⟨s.available - 1, s.tasks.set i .inflight⟩
  | release (s : GateState) (i : Nat)
      (hp : s.tasks[i]? = some .inflight) :
      GateStep s ⟨s.available + 1, s.tasks.set i .done⟩

/-- Reachability under the scheduler. -/
def GateReachable (n : Nat) (s : GateState) : Prop :=
  Relation.ReflTransGen GateStep (initState n) s

/-! ## Retry wrapper (src/main.py lines 322-331 and 182-207)

`main_async` wraps the HTTP session in `RetryClient` configured with
`ExponentialRetry(attempts=3)`. The wrapper itself lives in the
`aiohttp_retry` dependency, not under `src/`, so it is modelled from the
spec (§4.2): up to 3 attempts; a 2xx response ends the loop at once; only
network/transport failures and non-2xx statuses are retried; the interval
before retry `k` is `base * 2 ^ (k - 1)`; after the attempt budget is
exhausted the lookup degrades to the empty string (the `except` branch of
`scrape_latest_version` / an empty scrape), never an exception to the
caller. -/

/-- The outcome of one HTTP attempt, as the retry wrapper sees it: a
successful (2xx) response carrying a body, or a retryable failure (transport
error, timeout, or non-2xx status). -/
inductive AttemptOutcome
  | ok (body : String)
  | fail
deriving DecidableEq, Repr

/-- Modelled from the spec: the retry wrapper's attempt budget,
`ExponentialRetry(attempts=3)` (src/main.py line 323). -/
def retryAttempts : Nat := 3

/-- Modelled from the spec: the retry loop. `stub k` is the outcome of the
`k`-th attempt (0-based); the loop returns the first successful body, or
`none` once the budget is exhausted. -/
def runAttempts (stub : Nat → AttemptOutcome) : Nat → Nat → Option String
  | _, 0 => none
  | k, budget + 1 =>
    match stub k with
    | .ok body => some body
    | .fail => runAttempts stub (k + 1) budget

/-- Number of attempts the retry loop actually performs. -/
def attemptsMade (stub : Nat → AttemptOutcome) : Nat → Nat → Nat
  | _, 0 => 0
  | k, budget + 1 =>
    match stub k with
    | .ok _ => 1
    | .fail => 1 + attemptsMade stub (k + 1) budget

/-- A full lookup through the retry wrapper: run up to `retryAttempts`
attempts; exhaustion of the budget degrades to the empty string (the
"unavailable" resolution), never an error. -/
def fetchWithRetry (stub : Nat → AttemptOutcome) : String :=
  (runAttempts stub 0 retryAttempts).getD ""

/-- Modelled from the spec: the interval before retry `k` (1-based) grows
exponentially from a small base, `base * 2 ^ (k - 1)`. -/
def backoffDelay (base : ℚ) (k : Nat) : ℚ :=
  base * 2 ^ (k - 1)

/-- The classification step with the pre-filter's two disjuncts reduced to
the single substring test — used to state that the `startswith` disjunct is
redundant. -/
def needsUpdateSubOnly (e : AppEntry) : Bool :=
  if e.installed.data.isEmpty || e.latest.data.isEmpty then false
  else if containsSub e.installed.data e.latest.data then false
  else compare_versions e.installed e.latest == ComparisonOutcome.update_available

/-- No two adjacent dots (the shape `collapseDots` establishes). -/
def NoDD (l : List Char) : Prop :=
  List.Chain' (fun a b => ¬(a = '.' ∧ b = '.')) l

/-! ## Lemmas about normalization -/

theorem mapToDots_mem {l : List Char} {c : Char} (h : c ∈ mapToDots l) :
    c.isDigit = true ∨ c = '.' := by
  simp only [mapToDots, List.mem_map] at h
  obtain ⟨a, -, rfl⟩ := h
  by_cases ha : a.isDigit || a == '.'
  · simp only [ha, if_pos]
    rcases Bool.or_eq_true_iff.mp ha with h | h
    · exact Or.inl h
    · exact Or.inr (by simpa using h)
  · simp [ha]

theorem mapToDots_id {l : List Char} (h : ∀ c ∈ l, c.isDigit = true ∨ c = '.') :
    mapToDots l = l := by
  induction l with
  | nil => rfl
  | cons c t ih =>
    have hc := h c (List.mem_cons_self c t)
    have ht := ih fun x hx => h x (List.mem_cons_of_mem c hx)
    have hcc : (if c.isDigit || c == '.' then c else '.') = c := by
      rcases hc with hc | hc <;> simp [hc]
    calc mapToDots (c :: t)
        = (if c.isDigit || c == '.' then c else '.') :: mapToDots t := rfl
      _ = c :: t := by rw [hcc, ht]

theorem collapseDots_cons_dot_false {a : Char} {t : List Char} (ha : a = '.') :
    collapseDots (a :: t) false = '.' :: collapseDots t true := by
  subst ha; simp [collapseDots]

theorem collapseDots_cons_dot_true {a : Char} {t : List Char} (ha : a = '.') :
    collapseDots (a :: t) true = collapseDots t true := by
  subst ha; simp [collapseDots]

theorem collapseDots_cons_ne {a : Char} {t : List Char} {b : Bool} (ha : a ≠ '.') :
    collapseDots (a :: t) b = a :: collapseDots t false := by
  have ha' : (a == '.') = false := by simpa using ha
  simp [collapseDots, ha']

theorem collapseDots_mem {l : List Char} {b : Bool} {c : Char}
    (h : c ∈ collapseDots l b) : c ∈ l := by
  induction l generalizing b with
  | nil => simp [collapseDots] at h
  | cons a t ih =>
    by_cases ha : a = '.'
    · cases b with
      | true =>
        rw [collapseDots_cons_dot_true ha] at h
        exact List.mem_cons_of_mem a (ih h)
      | false =>
        rw [collapseDots_cons_dot_false ha] at h
        rcases List.mem_cons.mp h with h | h
        · exact (h.trans ha.symm) ▸ List.mem_cons_self a t
        · exact List.mem_cons_of_mem a (ih h)
    · rw [collapseDots_cons_ne ha] at h
      rcases List.mem_cons.mp h with h | h
      · exact h ▸ List.mem_cons_self a t
      · exact List.mem_cons_of_mem a (ih h)

theorem collapseDots_head_true {l : List Char} :
    (collapseDots l true).head? ≠ some '.' := by
  induction l with
  | nil => simp [collapseDots]
  | cons a t ih =>
    by_cases ha : a = '.'
    · rw [collapseDots_cons_dot_true ha]; exact ih
    · rw [collapseDots_cons_ne ha]; simpa using ha

theorem collapseDots_noDD {l : List Char} {b : Bool} : NoDD (collapseDots l b) := by
  induction l generalizing b with
  | nil => simp [collapseDots, NoDD]
  | cons a t ih =>
    by_cases ha : a = '.'
    · cases b with
      | true =>
        rw [collapseDots_cons_dot_true ha]; exact ih
      | false =>
        rw [collapseDots_cons_dot_false ha]
        refine (List.chain'_cons'.mpr ⟨?_, ih⟩)
        intro y hy hcontra
        exact collapseDots_head_true (l := t) (by rw [hy, hcontra.2])
    · rw [collapseDots_cons_ne ha]
      refine (List.chain'_cons'.mpr ⟨?_, ih⟩)
      intro y hy hcontra
      exact ha hcontra.1

theorem collapseDots_id : ∀ l : List Char, NoDD l →
    collapseDots l false = l ∧ (l.head? ≠ some '.' → collapseDots l true = l) := by
  intro l
  induction l with
  | nil => intro _; exact ⟨rfl, fun _ => rfl⟩
  | cons a t ih =>
    intro h
    have ht : NoDD t := (List.Chain'.tail h : NoDD ((a :: t).tail))
    have iht := ih ht
    by_cases ha : a = '.'
    · have hhead : t.head? ≠ some '.' := by
        intro hhd
        rcases t with - | ⟨b, t'⟩
        · simp at hhd
        · have hnd : ¬(a = '.' ∧ b = '.') := (List.chain'_cons.mp h).1
          exact hnd ⟨ha, by simpa using hhd⟩
      constructor
      · rw [collapseDots_cons_dot_false ha, iht.2 hhead, ha]
      · intro hcontra
        exact absurd (by simp [ha]) hcontra
    · constructor
      · rw [collapseDots_cons_ne ha, iht.1]
      · intro hne
        rw [collapseDots_cons_ne ha, iht.1]

theorem collapseDots_eq_collapseRuns : ∀ l : List Char,
    collapseDots l false = collapseRuns l ∧
    collapseDots l true = collapseRuns (l.dropWhile (fun c => c == '.')) := by
  intro l
  induction l with
  | nil => exact ⟨by simp [collapseDots, collapseRuns], by simp [collapseDots, collapseRuns]⟩
  | cons a t ih =>
    by_cases ha : a = '.'
    · have ha' : (a == '.') = true := by simpa using ha
      constructor
      · rw [collapseDots_cons_dot_false ha, collapseRuns, if_pos ha', ih.2]
      · rw [collapseDots_cons_dot_true ha, List.dropWhile_cons, if_pos ha', ih.2]
    · have ha' : (a == '.') = false := by simpa using ha
      constructor
      · rw [collapseDots_cons_ne ha, collapseRuns, if_neg (by simp [ha']), ih.1]
      · rw [collapseDots_cons_ne ha, List.dropWhile_cons, if_neg (by simp [ha']),
          collapseRuns, if_neg (by simp [ha']), ih.1]

theorem dropWhile_head_not {p : Char → Bool} {l : List Char} {c : Char}
    (h : (l.dropWhile p).head? = some c) : p c = false := by
  induction l with
  | nil => simp at h
  | cons a t ih =>
    rw [List.dropWhile_cons] at h
    by_cases hp : p a
    · rw [if_pos hp] at h
      exact ih h
    · rw [if_neg hp] at h
      simp only [List.head?_cons, Option.some.injEq] at h
      subst h
      exact Bool.eq_false_iff.mpr hp

theorem dropWhile_id_of_head {p : Char → Bool} {l : List Char}
    (h : ∀ c, l.head? = some c → p c = false) : l.dropWhile p = l := by
  cases l with
  | nil => rfl
  | cons a t =>
    rw [List.dropWhile_cons, if_neg]
    simp [h a rfl]

theorem getLast?_dropWhile_ne {p : Char → Bool} {l : List Char}
    (h : l.dropWhile p ≠ []) : (l.dropWhile p).getLast? = l.getLast? := by
  obtain ⟨t, ht⟩ := List.dropWhile_suffix (l := l) p
  conv_rhs => rw [← ht]
  rw [List.getLast?_append]
  cases hd : (l.dropWhile p).getLast? with
  | none => exact absurd (List.getLast?_eq_none_iff.mp hd) h
  | some c => rfl

theorem stripDots_mem {l : List Char} {c : Char} (h : c ∈ stripDots l) : c ∈ l := by
  unfold stripDots at h
  rw [List.mem_reverse] at h
  have h2 := List.Sublist.mem h (List.IsSuffix.sublist (List.dropWhile_suffix _))
  rw [List.mem_reverse] at h2
  exact List.Sublist.mem h2 (List.IsSuffix.sublist (List.dropWhile_suffix _))

theorem noDD_reverse {l : List Char} (h : NoDD l) : NoDD l.reverse := by
  rw [NoDD, List.chain'_reverse]
  exact List.Chain'.imp (fun a b hab hcon => hab ⟨hcon.2, hcon.1⟩) h

theorem noDD_dropWhile {l : List Char} (p : Char → Bool) (h : NoDD l) :
    NoDD (l.dropWhile p) :=
  List.Chain'.suffix h (List.dropWhile_suffix p)

theorem noDD_stripDots {l : List Char} (h : NoDD l) : NoDD (stripDots l) := by
  unfold stripDots
  exact noDD_reverse (noDD_dropWhile _ (noDD_reverse (noDD_dropWhile _ h)))

theorem stripDots_getLast {l : List Char} : (stripDots l).getLast? ≠ some '.' := by
  unfold stripDots
  rw [List.getLast?_reverse]
  intro h
  have hp := dropWhile_head_not h
  simp at hp

theorem stripDots_head {l : List Char} : (stripDots l).head? ≠ some '.' := by
  unfold stripDots
  rw [List.head?_reverse]
  by_cases hX : ((l.dropWhile (fun c => c == '.')).reverse.dropWhile (fun c => c == '.')) = []
  · rw [hX]; simp
  · rw [getLast?_dropWhile_ne hX, List.getLast?_reverse]
    intro h
    have hp := dropWhile_head_not h
    simp at hp

theorem stripDots_id {l : List Char}
    (h1 : l.head? ≠ some '.') (h2 : l.getLast? ≠ some '.') : stripDots l = l := by
  have e1 : l.dropWhile (fun c => c == '.') = l :=
    dropWhile_id_of_head (fun c hc => by
      rw [hc] at h1
      have hcne : c ≠ '.' := fun hcc => h1 (by rw [hcc])
      simpa using hcne)
  have e2 : l.reverse.dropWhile (fun c => c == '.') = l.reverse :=
    dropWhile_id_of_head (fun c hc => by
      rw [List.head?_reverse] at hc
      rw [hc] at h2
      have hcne : c ≠ '.' := fun hcc => h2 (by rw [hcc])
      simpa using hcne)
  unfold stripDots
  rw [e1, e2, List.reverse_reverse]

theorem normalize_version_chars {s : String} {c : Char}
    (h : c ∈ (normalize_version s).data) : c.isDigit = true ∨ c = '.' :=
  mapToDots_mem (collapseDots_mem (stripDots_mem h))

theorem normalize_version_idem (s : String) :
    normalize_version (normalize_version s) = normalize_version s := by
  have hnodd : NoDD (normalize_version s).data :=
    noDD_stripDots collapseDots_noDD
  have hhead : (normalize_version s).data.head? ≠ some '.' := stripDots_head
  have hlast : (normalize_version s).data.getLast? ≠ some '.' := stripDots_getLast
  show String.mk (stripDots (collapseDots (mapToDots (normalize_version s).data) false))
      = normalize_version s
  rw [mapToDots_id (fun c hc => normalize_version_chars hc),
    (collapseDots_id _ hnodd).1, stripDots_id hhead hlast]

theorem normalize_version_eq_spec (s : String) :
    normalize_version s = normalizeSpec s := by
  show String.mk (stripDots (collapseDots (mapToDots s.data) false)) = _
  rw [(collapseDots_eq_collapseRuns (mapToDots s.data)).1]
  rfl

/-! ## Lemmas about the comparison -/

theorem padTo_self (l : List Nat) : padTo l l.length = l := by
  simp [padTo]

theorem padTo_nil (n : Nat) : padTo [] n = List.replicate n 0 := by
  simp [padTo]

theorem padTo_cons (x : Nat) (xs : List Nat) (n : Nat) :
    padTo (x :: xs) (n + 1) = x :: padTo xs n := by
  simp [padTo, Nat.succ_sub_succ]

theorem cmpZeros_eq_lex : ∀ bs : List Nat,
    cmpZeros bs = lexCmp (List.replicate bs.length 0) bs := by
  intro bs
  induction bs with
  | nil => simp [cmpZeros, lexCmp]
  | cons y ys ih =>
    by_cases hy : y = 0
    · subst hy
      simp only [cmpZeros, if_pos rfl, List.length_cons, List.replicate_succ,
        lexCmp, lt_irrefl, if_neg (lt_irrefl 0)]
      exact ih
    · have hylt : 0 < y := Nat.pos_of_ne_zero hy
      simp [cmpZeros, hy, List.replicate_succ, lexCmp, hylt]

theorem cmpComponents_nil_right : ∀ as : List Nat,
    cmpComponents as [] = lexCmp as (List.replicate as.length 0) := by
  intro as
  induction as with
  | nil => simp [cmpComponents, cmpZeros, lexCmp]
  | cons x xs ih =>
    by_cases hx : x = 0
    · subst hx
      simp only [cmpComponents, if_pos rfl, List.length_cons, List.replicate_succ,
        lexCmp, lt_irrefl, if_neg (lt_irrefl 0)]
      exact ih
    · have hxlt : 0 < x := Nat.pos_of_ne_zero hx
      simp [cmpComponents, hx, List.replicate_succ, lexCmp, hxlt, Nat.not_lt_zero]

theorem cmpComponents_eq_lexPadded : ∀ a b : List Nat,
    cmpComponents a b =
      lexCmp (padTo a (max a.length b.length)) (padTo b (max a.length b.length)) := by
  intro a
  induction a with
  | nil =>
    intro b
    have hmax : max (List.length ([] : List Nat)) b.length = b.length := by simp
    rw [hmax, padTo_nil, padTo_self]
    exact cmpZeros_eq_lex b
  | cons x xs ih =>
    intro b
    cases b with
    | nil =>
      have hmax : max (x :: xs).length (List.length ([] : List Nat)) = (x :: xs).length := by
        simp
      rw [hmax, padTo_nil, padTo_self]
      exact cmpComponents_nil_right (x :: xs)
    | cons y ys =>
      have hmax : max (x :: xs).length (y :: ys).length = max xs.length ys.length + 1 := by
        simp only [List.length_cons]
        omega
      rw [hmax, padTo_cons, padTo_cons]
      by_cases hxy : x < y
      · simp [cmpComponents, lexCmp, hxy]
      · by_cases hyx : y < x
        · simp [cmpComponents, lexCmp, hxy, hyx]
        · simp only [cmpComponents, lexCmp, if_neg hxy, if_neg hyx]
          exact ih ys

theorem cmpComponents_refl : ∀ a : List Nat, cmpComponents a a = .eq := by
  intro a
  induction a with
  | nil => simp [cmpComponents, cmpZeros]
  | cons x xs ih => simp [cmpComponents, lt_irrefl, ih]

theorem cmpComponents_swap : ∀ a b : List Nat,
    cmpComponents b a = (cmpComponents a b).swap := by
  intro a
  induction a with
  | nil =>
    intro b
    induction b with
    | nil => simp [cmpComponents, cmpZeros, Ordering.swap]
    | cons y ys ihb =>
      by_cases hy : y = 0
      · subst hy
        simp only [cmpComponents, cmpZeros, if_pos rfl]
        exact ihb
      · simp [cmpComponents, cmpZeros, hy, Ordering.swap]
  | cons x xs ih =>
    intro b
    cases b with
    | nil =>
      by_cases hx : x = 0
      · subst hx
        simp only [cmpComponents, cmpZeros, if_pos rfl]
        exact ih []
      · simp [cmpComponents, cmpZeros, hx, Ordering.swap]
    | cons y ys =>
      by_cases hxy : x < y
      · have hyx : ¬ y < x := by omega
        simp [cmpComponents, hxy, hyx, Ordering.swap]
      · by_cases hyx : y < x
        · simp [cmpComponents, hxy, hyx, Ordering.swap]
        · simp only [cmpComponents, if_neg hxy, if_neg hyx]
          exact ih ys

/-! ## Lemmas about classification -/

theorem containsSub_of_isPrefixOf {hay needle : List Char}
    (h : needle.isPrefixOf hay = true) : containsSub hay needle = true := by
  rw [containsSub.eq_def, h, Bool.true_or]

theorem preFilter_or_eq (installed latest : String) :
    (containsSub installed.data latest.data || latest.data.isPrefixOf installed.data)
      = containsSub installed.data latest.data := by
  by_cases hc : containsSub installed.data latest.data = true
  · simp [hc]
  · have hp : latest.data.isPrefixOf installed.data = false := by
      by_contra hne
      exact hc (containsSub_of_isPrefixOf (Bool.of_not_eq_false hne))
    simp [hp]

/-! ## Lemmas about the admission gate -/

theorem countP_set_eq {l : List TaskPhase} {i : Nat} {a : TaskPhase} (b : TaskPhase)
    (p : TaskPhase → Bool) (h : l[i]? = some a) :
    (l.set i b).countP p + (if p a then 1 else 0)
      = l.countP p + (if p b then 1 else 0) := by
  induction l generalizing i with
  | nil => simp at h
  | cons c t ih =>
    cases i with
    | zero =>
      simp only [List.getElem?_cons_zero, Option.some.injEq] at h
      subst h
      simp only [List.set_cons_zero, List.countP_cons]
      omega
    | succ j =>
      simp only [List.getElem?_cons_succ] at h
      have hih := ih h
      simp only [List.set_cons_succ, List.countP_cons]
      omega

theorem inflightCount_initState (n : Nat) : inflightCount (initState n) = 0 := by
  unfold inflightCount initState
  induction n with
  | zero => rfl
  | succ m ih => simp [List.replicate_succ, List.countP_cons, TaskPhase.isInflight, ih]

theorem gateStep_inv {s s' : GateState} (h : GateStep s s')
    (hinv : s.available + inflightCount s = SEM_LIMIT) :
    s'.available + inflightCount s' = SEM_LIMIT := by
  cases h with
  | acquire i hp hc =>
    have hcount := countP_set_eq TaskPhase.inflight TaskPhase.isInflight hp
    simp [TaskPhase.isInflight] at hcount
    unfold inflightCount at hinv ⊢
    dsimp only
    omega
  | release i hp =>
    have hcount := countP_set_eq TaskPhase.done TaskPhase.isInflight hp
    simp [TaskPhase.isInflight] at hcount
    unfold inflightCount at hinv ⊢
    dsimp only
    omega

theorem gateReachable_inv {n : Nat} {s : GateState} (h : GateReachable n s) :
    s.available + inflightCount s = SEM_LIMIT := by
  induction h with
  | refl => rw [inflightCount_initState]; simp [initState]
  | tail hsteps hstep ih =>
    exact gateStep_inv hstep ih

/-! ## Lemmas about the upstream sort -/

theorem nameLe_trans (a b c : AppEntry) (hab : nameLe a b = true)
    (hbc : nameLe b c = true) : nameLe a c = true := by
  simp only [nameLe, decide_eq_true_eq] at hab hbc ⊢
  exact le_trans hab hbc

theorem nameLe_total (a b : AppEntry) : (nameLe a b || nameLe b a) = true := by
  simp only [nameLe, Bool.or_eq_true, decide_eq_true_eq]
  exact le_total _ _

theorem data_isEmpty_false {s : String} (h : s ≠ "") : s.data.isEmpty = false := by
  cases hd : s.data with
  | nil => exact absurd (String.ext hd) h
  | cons c t => rfl

theorem compare_versions_parsed {a b : String} {as bs : List Nat}
    (ha : parseRelease (normalize_version a) = some as)
    (hb : parseRelease (normalize_version b) = some bs) :
    compare_versions a b =
      match cmpComponents as bs with
      | .lt => ComparisonOutcome.update_available
      | .gt => ComparisonOutcome.up_to_date
      | .eq => ComparisonOutcome.versions_equal := by
  unfold compare_versions
  rw [ha, hb]

theorem compare_versions_unknown_left {a b : String}
    (ha : parseRelease (normalize_version a) = none) :
    compare_versions a b = ComparisonOutcome.unknown := by
  unfold compare_versions
  rw [ha]

theorem compare_versions_unknown_right {a b : String}
    (hb : parseRelease (normalize_version b) = none) :
    compare_versions a b = ComparisonOutcome.unknown := by
  unfold compare_versions
  rw [hb]
  cases ha : parseRelease (normalize_version a) <;> rfl

/-! ## The claims -/

/-- C1: for every pair of version strings that each parse into at least one
integer component, `compare_versions` returns the lexicographic comparison of
their integer component tuples with the shorter tuple zero-padded to the
longer length — strictly-less yields `update_available`, strictly-greater
`up_to_date`, equal `versions_equal`; in particular
`compare_versions "1.2" "1.2.1"` is `update_available`,
`compare_versions "1.2.1" "1.2"` is `up_to_date`, and
`compare_versions x x` is `versions_equal` for every parseable `x`. -/
theorem claim_C1_compare_lexicographic :
    (∀ (a b : String) (as bs : List Nat),
        parseRelease (normalize_version a) = some as →
        parseRelease (normalize_version b) = some bs →
        compare_versions a b = specCompare as bs) ∧
    compare_versions "1.2" "1.2.1" = ComparisonOutcome.update_available ∧
    compare_versions "1.2.1" "1.2" = ComparisonOutcome.up_to_date ∧
    (∀ (x : String) (xs : List Nat),
        parseRelease (normalize_version x) = some xs →
        compare_versions x x = ComparisonOutcome.versions_equal) := by
  refine ⟨?_, by decide, by decide, ?_⟩
  · intro a b as bs ha hb
    unfold compare_versions specCompare
    rw [ha, hb, ← cmpComponents_eq_lexPadded]
  · intro x xs hx
    rw [compare_versions_parsed hx hx, cmpComponents_refl xs]

/-- Witness for C1 at concrete inputs. -/
theorem claim_C1_witness :
    parseRelease (normalize_version "1.2") = some [1, 2] ∧
    parseRelease (normalize_version "1.2.1") = some [1, 2, 1] ∧
    compare_versions "1.2" "1.2.1" = specCompare [1, 2] [1, 2, 1] ∧
    compare_versions "1.2" "1.2" = ComparisonOutcome.versions_equal := by
  refine ⟨by decide, by decide, ?_, ?_⟩
  · exact claim_C1_compare_lexicographic.1 "1.2" "1.2.1" [1, 2] [1, 2, 1]
      (by decide) (by decide)
  · exact claim_C1_compare_lexicographic.2.2.2 "1.2" [1, 2] (by decide)

/-- C2: for every record whose installed and latest strings are both
non-empty, if the raw latest string occurs verbatim inside the raw installed
string, or the installed string starts with the latest string, the record is
excluded from the update set — whatever `compare_versions` would say. -/
theorem claim_C2_prefilter_excludes (e : AppEntry)
    (h1 : e.installed ≠ "") (h2 : e.latest ≠ "")
    (hpre : containsSub e.installed.data e.latest.data = true ∨
        e.latest.data.isPrefixOf e.installed.data = true) :
    needsUpdate e = false ∧ ∀ entries : List AppEntry, e ∉ computeUpdates entries := by
  have hi := data_isEmpty_false h1
  have hl := data_isEmpty_false h2
  have hfalse : needsUpdate e = false := by
    unfold needsUpdate
    rw [hi, hl]
    simp only [Bool.or_self, Bool.false_eq_true, if_false]
    rcases hpre with h | h <;> simp [h]
  refine ⟨hfalse, fun entries hmem => ?_⟩
  have hkept := (List.mem_filter.mp hmem).2
  rw [hfalse] at hkept
  exact Bool.false_ne_true hkept

/-- Witness for C2: the spec's example (installed `"12.3 (4567)"`, latest
`"12.3"`), and a pair the pre-filter excludes although `compare_versions`
would report an update. -/
theorem claim_C2_witness :
    needsUpdate ⟨"App", "id", "12.3 (4567)", "12.3"⟩ = false ∧
    (⟨"App", "id", "12.3 (4567)", "12.3"⟩ : AppEntry) ∉
      computeUpdates [⟨"App", "id", "12.3 (4567)", "12.3"⟩] ∧
    compare_versions "1.10 (x)" "10" = ComparisonOutcome.update_available ∧
    needsUpdate ⟨"B", "b", "1.10 (x)", "10"⟩ = false := by
  have h1 := claim_C2_prefilter_excludes ⟨"App", "id", "12.3 (4567)", "12.3"⟩
    (by decide) (by decide) (Or.inl (by decide))
  have h2 := claim_C2_prefilter_excludes ⟨"B", "b", "1.10 (x)", "10"⟩
    (by decide) (by decide) (Or.inl (by decide))
  exact ⟨h1.1, h1.2 _, by decide, h2.1⟩

/-- C3: in every state the scheduler can reach from the initial state of a
batch of any size, the number of simultaneously in-flight resolutions never
exceeds the semaphore limit (`SEM_LIMIT = 20`); the bound is enforced by the
single counting gate shared by all tasks. -/
theorem claim_C3_concurrency_bound (n : Nat) (s : GateState)
    (h : GateReachable n s) : inflightCount s ≤ SEM_LIMIT := by
  have hinv := gateReachable_inv h
  omega

/-- Witness for C3: a batch of two tasks, one step after the first task
acquired the gate. -/
theorem claim_C3_witness :
    GateReachable 2 ⟨19, [TaskPhase.inflight, TaskPhase.pending]⟩ ∧
    inflightCount ⟨19, [TaskPhase.inflight, TaskPhase.pending]⟩ ≤ SEM_LIMIT := by
  have hreach : GateReachable 2 ⟨19, [TaskPhase.inflight, TaskPhase.pending]⟩ :=
    Relation.ReflTransGen.single
      (GateStep.acquire (initState 2) 0 (by decide) (by decide))
  exact ⟨hreach, claim_C3_concurrency_bound 2 _ hreach⟩

/-- C4: each remote lookup is attempted at most 3 times; a 2xx response is
never retried; a lookup failing twice then succeeding resolves successfully,
one that always fails degrades to the empty string after exactly 3 attempts
without raising; the interval before each retry doubles (`base * 2^(k-1)`). -/
theorem claim_C4_retry_policy :
    (∀ (stub : Nat → AttemptOutcome) (body : String),
        stub 0 = .fail → stub 1 = .fail → stub 2 = .ok body →
        fetchWithRetry stub = body ∧ attemptsMade stub 0 retryAttempts = 3) ∧
    (∀ stub : Nat → AttemptOutcome, (∀ k, stub k = .fail) →
        fetchWithRetry stub = "" ∧ attemptsMade stub 0 retryAttempts = 3) ∧
    (∀ (stub : Nat → AttemptOutcome) (body : String), stub 0 = .ok body →
        fetchWithRetry stub = body ∧ attemptsMade stub 0 retryAttempts = 1) ∧
    (∀ (base : ℚ) (k : Nat), 1 ≤ k →
        backoffDelay base (k + 1) = 2 * backoffDelay base k) := by
  refine ⟨?_, ?_, ?_, ?_⟩
  · intro stub body h0 h1 h2
    constructor
    · simp [fetchWithRetry, retryAttempts, runAttempts, h0, h1, h2]
    · simp [attemptsMade, retryAttempts, h0, h1, h2]
  · intro stub hall
    constructor
    · simp [fetchWithRetry, retryAttempts, runAttempts, hall 0, hall 1, hall 2]
    · simp [attemptsMade, retryAttempts, hall 0, hall 1, hall 2]
  · intro stub body h0
    constructor
    · simp [fetchWithRetry, retryAttempts, runAttempts, h0]
    · simp [attemptsMade, retryAttempts, h0]
  · intro base k hk
    unfold backoffDelay
    have hke : k + 1 - 1 = (k - 1) + 1 := by omega
    rw [hke, pow_succ]
    ring

/-- Witness for C4: a stub failing twice then succeeding, a stub that always
fails, a stub succeeding at once, and the doubling of the second interval. -/
theorem claim_C4_witness :
    fetchWithRetry (fun k => if k < 2 then .fail else .ok "9.9") = "9.9" ∧
    attemptsMade (fun k => if k < 2 then .fail else .ok "9.9") 0 retryAttempts = 3 ∧
    fetchWithRetry (fun _ => .fail) = "" ∧
    attemptsMade (fun _ => AttemptOutcome.fail) 0 retryAttempts = 3 ∧
    fetchWithRetry (fun _ => .ok "1.0") = "1.0" ∧
    backoffDelay 1 2 = 2 * backoffDelay 1 1 := by
  have h1 := claim_C4_retry_policy.1 (fun k => if k < 2 then .fail else .ok "9.9")
    "9.9" (by decide) (by decide) (by decide)
  have h2 := claim_C4_retry_policy.2.1 (fun _ => .fail) (fun k => rfl)
  have h3 := claim_C4_retry_policy.2.2.1 (fun _ => .ok "1.0") "1.0" rfl
  have h4 := claim_C4_retry_policy.2.2.2 1 1 (le_refl 1)
  exact ⟨h1.1, h1.2, h2.1, h2.2, h3.1, h4⟩

/-- C5: `normalize_version` replaces every character that is not a digit or a
separator with a separator, collapses consecutive separators, and trims
leading/trailing separators (stated against an independent rendering of that
pipeline); it is total, and the empty input normalizes to the empty string. -/
theorem claim_C5_normalize_pipeline :
    (∀ s : String, normalize_version s = normalizeSpec s) ∧
    normalize_version "" = "" :=
  ⟨normalize_version_eq_spec, by decide⟩

/-- C6: `normalize_version` is idempotent. -/
theorem claim_C6_normalize_idempotent (s : String) :
    normalize_version (normalize_version s) = normalize_version s :=
  normalize_version_idem s

/-- C7: if either side of a comparison fails to parse into at least one
integer component after normalization, the outcome is `unknown` (in
particular on an empty string on either side), and a record whose comparison
outcome is `unknown` never enters the update set. -/
theorem claim_C7_unknown_excluded :
    (∀ a b : String,
        (parseRelease (normalize_version a) = none ∨
          parseRelease (normalize_version b) = none) →
        compare_versions a b = ComparisonOutcome.unknown) ∧
    compare_versions "" "1.0" = ComparisonOutcome.unknown ∧
    compare_versions "1.0" "" = ComparisonOutcome.unknown ∧
    (∀ (e : AppEntry) (entries : List AppEntry),
        compare_versions e.installed e.latest = ComparisonOutcome.unknown →
        e ∉ computeUpdates entries) := by
  refine ⟨?_, by decide, by decide, ?_⟩
  · intro a b h
    rcases h with h | h
    · exact compare_versions_unknown_left h
    · exact compare_versions_unknown_right h
  · intro e entries hcmp hmem
    have hkept := (List.mem_filter.mp hmem).2
    have hfalse : needsUpdate e = false := by
      unfold needsUpdate
      split
      · rfl
      · split
        · rfl
        · rw [hcmp]; rfl
    rw [hfalse] at hkept
    exact Bool.false_ne_true hkept

/-- Witness for C7 at concrete inputs. -/
theorem claim_C7_witness :
    parseRelease (normalize_version "") = none ∧
    compare_versions "" "1.0" = ComparisonOutcome.unknown ∧
    (⟨"A", "a", "x", "y"⟩ : AppEntry) ∉ computeUpdates [⟨"A", "a", "x", "y"⟩] := by
  refine ⟨by decide, ?_, ?_⟩
  · exact claim_C7_unknown_excluded.1 "" "1.0" (Or.inl (by decide))
  · exact claim_C7_unknown_excluded.2.2.2 ⟨"A", "a", "x", "y"⟩ _ (by decide)

/-- C8: the update set preserves the order of the classified input — the
engine filters and never re-sorts — and that input is the record list sorted
upstream by display name, case-insensitively, before resolution. -/
theorem claim_C8_update_set_order :
    (∀ entries : List AppEntry, (computeUpdates entries).Sublist entries) ∧
    (∀ (resolve : String → String) (l : List AppEntry),
        (reconcile resolve l).Sublist ((sortEntries l).map (attachLatest resolve))) ∧
    (∀ l : List AppEntry, (sortEntries l).Pairwise (fun a b => nameLe a b = true)) := by
  refine ⟨?_, ?_, ?_⟩
  · intro entries
    exact List.filter_sublist entries
  · intro resolve l
    exact List.filter_sublist _
  · intro l
    exact List.sorted_mergeSort nameLe_trans nameLe_total l

/-- C9: `installed.startswith(latest)` implies `latest in installed`, so the
pre-filter's two-disjunct condition equals the single substring test and the
`startswith` disjunct never changes which records are skipped. -/
theorem claim_C9_startswith_redundant :
    (∀ installed latest : String,
        latest.data.isPrefixOf installed.data = true →
        containsSub installed.data latest.data = true) ∧
    (∀ installed latest : String,
        (containsSub installed.data latest.data ||
          latest.data.isPrefixOf installed.data)
          = containsSub installed.data latest.data) ∧
    (∀ e : AppEntry, needsUpdate e = needsUpdateSubOnly e) := by
  refine ⟨?_, ?_, ?_⟩
  · intro installed latest h
    exact containsSub_of_isPrefixOf h
  · intro installed latest
    exact preFilter_or_eq installed latest
  · intro e
    unfold needsUpdate needsUpdateSubOnly
    rw [preFilter_or_eq]

/-- Witness for C9 at a concrete prefix pair. -/
theorem claim_C9_witness :
    "1.2".data.isPrefixOf "1.2.3".data = true ∧
    containsSub "1.2.3".data "1.2".data = true :=
  ⟨by decide, claim_C9_startswith_redundant.1 "1.2.3" "1.2" (by decide)⟩

/-- C10: comparison is an order-theoretic dual under argument swap —
`update_available` on one side exactly matches `up_to_date` on the swapped
side, and `unknown` is symmetric. -/
theorem claim_C10_compare_duality (a b : String) :
    (compare_versions a b = ComparisonOutcome.update_available ↔
      compare_versions b a = ComparisonOutcome.up_to_date) ∧
    (compare_versions a b = ComparisonOutcome.unknown ↔
      compare_versions b a = ComparisonOutcome.unknown) := by
  cases ha : parseRelease (normalize_version a) with
  | none =>
    rw [compare_versions_unknown_left ha, compare_versions_unknown_right ha]
    simp
  | some as =>
    cases hb : parseRelease (normalize_version b) with
    | none =>
      rw [compare_versions_unknown_right hb, compare_versions_unknown_left hb]
      simp
    | some bs =>
      rw [compare_versions_parsed ha hb, compare_versions_parsed hb ha,
        cmpComponents_swap as bs]
      cases hc : cmpComponents as bs <;> simp [Ordering.swap]

end VersionTracker
